import Mathlib

/-!
# Verification of the next-intl locale-routing middleware

This development embeds the routing core of the repository
(`src/packages/next-intl/src/middleware/middleware.tsx` and
`src/packages/next-intl/src/middleware/utils.tsx`) as executable Lean
definitions and proves/refutes the frozen claims about it.

Strings are modelled as `String`/`List Char`.  JavaScript `String.replace`
with a string pattern replaces only the first occurrence and processes
`$`-escape sequences in the replacement; both behaviours are modelled
faithfully (`replaceFirst`, `getSubstitution`).

The regular expression built by `templateToRegex` turns each `[name]`
placeholder into the group `([^/]+)` and keeps every other template
character as-is, unescaped.  The matcher below (`matchParts`) implements
the semantics of that pattern on the domain where its literal characters
are regex-inert — a placeholder matches a non-empty run of non-`/`
characters (greedy, with backtracking) and every literal character matches
itself.  A template whose literal part contains one of the characters of
`regexSpecial` is *outside* this model: JavaScript `RegExp` would
reinterpret the character (`/[x]a*` compiles to `^/([^/]+)a*$`, whose
quantifier changes the match) or reject the pattern outright (`/[x](`
throws a `SyntaxError`).  Accordingly every general theorem about matching
(the C3 round trip) carries the hypothesis `litRegexOk` that the parsed
template's literal characters avoid `regexSpecial`, and on that domain the
model is exact; the concrete inputs below all satisfy it.

Functions of the repository that are *not* under `src/` (`resolveLocale`,
the `LocalizedPathnames` module, `getAlternateLinksHeaderValue`, the shared
constants) are treated as external collaborators: their results are inputs
of the embedded middleware, or are modelled from the spec where a claim
depends on them (marked `Modelled from the spec:`).
-/

namespace NextIntl

/-! ## Path templates (`utils.tsx`)

A template such as `/news/[articleSlug]-[articleId]` is a string; the
source parses placeholders with the regex `\[([^\]]+)\]` (a `[`, then one
or more non-`]` characters, then `]`).  `parseParts` performs the same
left-to-right scan, producing literal characters and placeholder names. -/

inductive Part where
  | lit (c : Char)
  | hole (name : List Char)
deriving DecidableEq, Repr

/-- Scan for the next `]`: returns the characters before it and the rest
after it (the shape matched by `[^\]]+` followed by `\]`, minus the
non-emptiness check, which `parseParts` performs). -/
def findRBracket : List Char → Option (List Char × List Char)
  | [] => none
  | c :: rest =>
    if c = ']' then some ([], rest)
    else (findRBracket rest).map (fun p => (c :: p.1, p.2))

theorem findRBracket_length {cs n r} (h : findRBracket cs = some (n, r)) :
    r.length < cs.length := by
  induction cs generalizing n r with
  | nil => simp [findRBracket] at h
  | cons c rest ih =>
    by_cases hc : c = ']'
    · simp [findRBracket, hc] at h
      simp [← h.2]
    · simp only [findRBracket, if_neg hc, Option.map_eq_some'] at h
      obtain ⟨p, hfind, heq⟩ := h
      have hr : r = p.2 := by
        have := congrArg Prod.snd heq
        simpa using this.symm
      subst hr
      exact Nat.lt_trans (ih hfind) (Nat.lt_succ_self _)

/-- The placeholder scan, fuelled so that it is structurally recursive
(and hence kernel-reducible); `parseParts` supplies sufficient fuel. -/
def parsePartsFuel : Nat → List Char → List Part
  | 0, _ => []
  | _, [] => []
  | fuel + 1, c :: cs =>
    if c = '[' then
      match findRBracket cs with
      | some (name, rest) =>
        if name = [] then .lit '[' :: parsePartsFuel fuel cs
        else .hole name :: parsePartsFuel fuel rest
      | none => .lit '[' :: parsePartsFuel fuel cs
    else .lit c :: parsePartsFuel fuel cs

/-- The source's placeholder scan `/\[([^\]]+)\]/g`: each match becomes a
`hole` carrying its (non-empty) name, every unmatched character a `lit`. -/
def parseParts (cs : List Char) : List Part := parsePartsFuel cs.length cs

theorem parsePartsFuel_irrel (fuel fuel' : Nat) (cs : List Char)
    (h : cs.length ≤ fuel) (h' : cs.length ≤ fuel') :
    parsePartsFuel fuel cs = parsePartsFuel fuel' cs := by
  induction fuel generalizing fuel' cs with
  | zero =>
    have : cs = [] := List.length_eq_zero.mp (Nat.le_zero.mp h)
    subst this
    cases fuel' <;> rfl
  | succ fuel ih =>
    cases cs with
    | nil => cases fuel' <;> rfl
    | cons c cs =>
      cases fuel' with
      | zero => simp at h'
      | succ fuel' =>
        simp only [List.length_cons, Nat.add_le_add_iff_right] at h h'
        simp only [parsePartsFuel]
        by_cases hc : c = '['
        · simp only [if_pos hc]
          cases hfind : findRBracket cs with
          | none => rw [ih fuel' cs h h']
          | some p =>
            rcases p with ⟨name, rest⟩
            have hlt : rest.length < cs.length := findRBracket_length hfind
            by_cases hname : name = []
            · simp only [if_pos hname]
              rw [ih fuel' cs h h']
            · simp only [if_neg hname]
              rw [ih fuel' rest (by omega) (by omega)]
        · simp only [if_neg hc]
          rw [ih fuel' cs h h']

/-- `parsePartsFuel` with sufficient fuel computes `parseParts`. -/
theorem parsePartsFuel_eq (fuel : Nat) (cs : List Char)
    (h : cs.length ≤ fuel) : parsePartsFuel fuel cs = parseParts cs :=
  parsePartsFuel_irrel fuel cs.length cs h (Nat.le_refl _)

/-- The defining unfolding of `parseParts` on a cons cell. -/
theorem parseParts_cons (c : Char) (cs : List Char) :
    parseParts (c :: cs) =
      if c = '[' then
        match findRBracket cs with
        | some (name, rest) =>
          if name = [] then .lit '[' :: parseParts cs
          else .hole name :: parseParts rest
        | none => .lit '[' :: parseParts cs
      else .lit c :: parseParts cs := by
  show parsePartsFuel (cs.length + 1) (c :: cs) = _
  simp only [parsePartsFuel]
  by_cases hc : c = '['
  · simp only [if_pos hc]
    cases hfind : findRBracket cs with
    | none =>
      simp only []
      rw [parsePartsFuel_eq cs.length cs (Nat.le_refl _)]
    | some p =>
      rcases p with ⟨name, rest⟩
      have hlt : rest.length < cs.length := findRBracket_length hfind
      simp only []
      by_cases hname : name = []
      · simp only [if_pos hname]
        rw [parsePartsFuel_eq cs.length cs (Nat.le_refl _)]
      · simp only [if_neg hname]
        rw [parsePartsFuel_eq cs.length rest (by omega)]
  · simp only [if_neg hc]
    rw [parsePartsFuel_eq cs.length cs (Nat.le_refl _)]

/-- The placeholder names of a template, left to right (the source's
`template.match(/\[([^\]]+)\]/g)` with the brackets stripped off later). -/
def holeNames (parts : List Part) : List (List Char) :=
  parts.filterMap (fun p => match p with | .hole n => some n | .lit _ => none)

def countHoles (parts : List Part) : Nat := (holeNames parts).length

/-- Render a parsed template with an optional value per placeholder (one
entry of `σ` is consumed per hole): `some v` renders the substituted value,
`none` renders the original `[name]` text.  The template string itself is
`renderMix parts []` (every hole unsubstituted). -/
def renderMix : List Part → List (Option (List Char)) → List Char
  | [], _ => []
  | .lit c :: ps, σ => c :: renderMix ps σ
  | .hole n :: ps, [] => '[' :: (n ++ ']' :: renderMix ps [])
  | .hole n :: ps, some v :: σ => v ++ renderMix ps σ
  | .hole n :: ps, none :: σ => '[' :: (n ++ ']' :: renderMix ps σ)

/-- The characters that carry syntactic meaning in a JavaScript regular
expression pattern outside a character class.  `templateToRegex` splices
the template's literal characters into the pattern without escaping, so
only a template whose literal part avoids all of them compiles to a
pattern that matches those characters literally (and compiles at all — an
unmatched `(` raises a `SyntaxError` in the source). -/
def regexSpecial : List Char :=
  ['\\', '^', '$', '.', '|', '?', '*', '+', '(', ')', '[', ']', '{', '}']

/-! ### The matcher

`templateToRegex` anchors the pattern, so a match must consume the whole
pathname.  `tryLens f cs k` models the greedy group `([^/]+)`: it tries the
candidate values `cs.take k, cs.take (k-1), …, cs.take 1` (longest first,
as regex backtracking does), accepting the first slash-free candidate after
which the continuation `f` matches the remainder.

`matchParts`/`allParts` treat literal characters literally; they agree
with the source's `RegExp` exactly on templates whose literal part avoids
`regexSpecial` (hypothesis `litRegexOk` below), and claims about matching
are stated only on that domain. -/

def tryLens (f : List Char → Option (List (List Char))) (cs : List Char) :
    Nat → Option (List (List Char))
  | 0 => none
  | k + 1 =>
    let v := cs.take (k + 1)
    if v.contains '/' then tryLens f cs k
    else
      match f (cs.drop (k + 1)) with
      | some vs => some (v :: vs)
      | none => tryLens f cs k

/-- `regex.exec(pathname)` for the anchored template regex (exact for
templates whose literal part avoids `regexSpecial`): `some` holds the
captured group values in order, `none` means no match. -/
def matchParts : List Part → List Char → Option (List (List Char))
  | [], cs => if cs.isEmpty then some [] else none
  | .lit c :: ps, [] => none
  | .lit c :: ps, d :: cs => if c = d then matchParts ps cs else none
  | .hole _ :: ps, cs => tryLens (matchParts ps) cs cs.length

/-- All candidate values for one `([^/]+)` group, longest first (used to
state (un)ambiguity of a match; not part of the source). -/
def allLens (g : List Char → List (List (List Char))) (cs : List Char) :
    Nat → List (List (List Char))
  | 0 => []
  | k + 1 =>
    let v := cs.take (k + 1)
    (if v.contains '/' then []
     else (g (cs.drop (k + 1))).map (fun vs => v :: vs)) ++ allLens g cs k

/-- Every way a pathname can be split along the template: each element is
one assignment of group values.  `matchParts` returns the head (greedy
order); a pathname matches *unambiguously* when this list is a singleton.
Like `matchParts`, this notion is exact only for templates whose literal
part avoids `regexSpecial`, and is used in statements only under that
hypothesis. -/
def allParts : List Part → List Char → List (List (List Char))
  | [], cs => if cs.isEmpty then [[]] else []
  | .lit c :: ps, [] => []
  | .lit c :: ps, d :: cs => if c = d then allParts ps cs else []
  | .hole _ :: ps, cs => allLens (allParts ps) cs cs.length

/-! ### JavaScript `String.replace` with a string pattern -/

/-- The first occurrence of `pat` in `s`: `some (before, after)` with
`s = before ++ pat ++ after` and `pat` not occurring earlier. -/
def firstOccur (s pat : List Char) : Option (List Char × List Char) :=
  if pat.isPrefixOf s then some ([], s.drop pat.length)
  else
    match s with
    | [] => none
    | c :: s' => (firstOccur s' pat).map (fun p => (c :: p.1, p.2))

/-- ECMAScript `GetSubstitution` for a string pattern (no capture groups):
`$$` is a literal `$`, `$&` inserts the matched text, a `$` before a
backquote inserts the text before the match, a `$` before an apostrophe the
text after it; any other `$` is literal. -/
def getSubstitution (matched before after : List Char) : List Char → List Char
  | [] => []
  | '$' :: c :: r =>
    if c = '$' then '$' :: getSubstitution matched before after r
    else if c = '&' then matched ++ getSubstitution matched before after r
    else if c = Char.ofNat 96 then before ++ getSubstitution matched before after r
    else if c = Char.ofNat 39 then after ++ getSubstitution matched before after r
    else '$' :: getSubstitution matched before after (c :: r)
  | c :: r => c :: getSubstitution matched before after r

/-- JavaScript `s.replace(pat, rep)` with string `pat`: replaces only the
first occurrence, feeding `rep` through `GetSubstitution`. -/
def replaceFirst (s pat rep : List Char) : List Char :=
  match firstOccur s pat with
  | none => s
  | some (before, after) => before ++ getSubstitution pat before after rep ++ after

/-! ### `formatPathname` and `getRouteParams` (`utils.tsx`) -/

/-- A route-parameter value as passed from user code: a string or a number
(numbers are stringified by the `replace` coercion, `3 ↦ "3"`). -/
inductive ParamValue where
  | str (s : String)
  | num (n : Int)
deriving DecidableEq, Repr

/-- JavaScript `String(value)` for the two value shapes used by the spec. -/
def ParamValue.toChars : ParamValue → List Char
  | .str s => s.toList
  | .num n => (toString n).toList

/-- `formatPathname(template, params?)`: without `params` the template is
returned unchanged; otherwise each `[key]` is substituted via one
`result.replace('[' + key + ']', value)` per entry, in entry order. -/
def formatPathname (template : List Char)
    (params : Option (List (List Char × ParamValue))) : List Char :=
  match params with
  | none => template
  | some ps =>
    ps.foldl
      (fun acc kv =>
        replaceFirst acc ('[' :: (kv.1 ++ [']'])) kv.2.toChars)
      template

/-- JavaScript object assignment over a key list: re-assigning an existing
key updates it in place, a new key is appended (insertion order kept). -/
def objSet : List (List Char × List Char) → List Char → List Char →
    List (List Char × List Char)
  | [], k, v => [(k, v)]
  | (k', v') :: rest, k, v =>
    if k' = k then (k', v) :: rest else (k', v') :: objSet rest k v

/-- The keys used by `getRouteParams`: each matched placeholder text with
every `[` and `]` character stripped (`.replace(/[[\]]/g, '')`). -/
def strippedNames (parts : List Part) : List (List Char) :=
  (holeNames parts).map (fun n => n.filter (fun c => c ≠ '[' ∧ c ≠ ']'))

/-- `getRouteParams(template, pathname)`: `undefined` if the regex does not
match; otherwise an object mapping each placeholder key to its captured
group (an empty key — `if (key)` — is skipped; a repeated key is
overwritten, keeping its first position).  Inherits the matcher's domain:
exact for templates whose literal part avoids `regexSpecial`. -/
def getRouteParams (template pathname : List Char) :
    Option (List (List Char × List Char)) :=
  match matchParts (parseParts template) pathname with
  | none => none
  | some vs =>
    some (((strippedNames (parseParts template)).zip vs).foldl
      (fun m kv => if kv.1 = [] then m else objSet m kv.1 kv.2) [])

/-! ### Relating the greedy matcher to the set of all splits -/

theorem tryLens_eq_head (f : List Char → Option (List (List Char)))
    (g : List Char → List (List (List Char)))
    (hfg : ∀ cs', f cs' = (g cs').head?) (cs : List Char) :
    ∀ k, tryLens f cs k = (allLens g cs k).head?
  | 0 => rfl
  | k + 1 => by
    simp only [tryLens, allLens]
    by_cases hcont : (cs.take (k + 1)).contains '/'
    · simp only [if_pos hcont, List.nil_append]
      exact tryLens_eq_head f g hfg cs k
    · simp only [if_neg hcont, hfg]
      cases hg : g (cs.drop (k + 1)) with
      | nil =>
        simp only [hg, List.map_nil, List.nil_append]
        exact tryLens_eq_head f g hfg cs k
      | cons a as =>
        simp [hg]

theorem matchParts_eq_head :
    ∀ (parts : List Part) (cs : List Char),
      matchParts parts cs = (allParts parts cs).head?
  | [], cs => by
    cases cs <;> simp [matchParts, allParts]
  | .lit c :: ps, [] => rfl
  | .lit c :: ps, d :: cs => by
    by_cases hcd : c = d <;>
      simp [matchParts, allParts, hcd, matchParts_eq_head ps cs]
  | .hole n :: ps, cs =>
    tryLens_eq_head (matchParts ps) (allParts ps)
      (fun cs' => matchParts_eq_head ps cs') cs cs.length

theorem mem_allLens (g : List Char → List (List (List Char)))
    (v rest : List Char) (vs : List (List Char))
    (hne : v ≠ []) (hslash : v.contains '/' = false)
    (hmem : vs ∈ g rest) :
    ∀ k, v.length ≤ k → (v :: vs) ∈ allLens g (v ++ rest) k := by
  intro k
  induction k with
  | zero =>
    intro hk
    exact absurd (List.length_eq_zero.mp (Nat.le_zero.mp hk)) hne
  | succ k ih =>
    intro hk
    by_cases hvl : v.length = k + 1
    · have htake : (v ++ rest).take (k + 1) = v := by
        rw [← hvl, List.take_left]
      have hdrop : (v ++ rest).drop (k + 1) = rest := by
        rw [← hvl, List.drop_left]
      simp only [allLens]
      refine List.mem_append_left _ ?_
      rw [htake, hdrop, if_neg (by simpa using hslash)]
      exact List.mem_map_of_mem _ hmem
    · have : v.length ≤ k := by omega
      exact List.mem_append_right _ (ih this)

theorem rendered_mem_allParts :
    ∀ (parts : List Part) (vals : List (List Char)),
      vals.length = countHoles parts →
      (∀ v ∈ vals, v ≠ [] ∧ v.contains '/' = false) →
      vals ∈ allParts parts (renderMix parts (vals.map some))
  | [], vals => by
    intro hlen _
    have : vals = [] := List.length_eq_zero.mp (by simpa [countHoles, holeNames] using hlen)
    subst this
    simp [allParts, renderMix]
  | .lit c :: ps, vals => by
    intro hlen hvals
    have hlen' : vals.length = countHoles ps := by
      simpa [countHoles, holeNames] using hlen
    simpa [renderMix, allParts] using
      rendered_mem_allParts ps vals hlen' hvals
  | .hole n :: ps, vals => by
    intro hlen hvals
    cases vals with
    | nil => simp [countHoles, holeNames] at hlen
    | cons v vs =>
      have hlen' : vs.length = countHoles ps := by
        simpa [countHoles, holeNames] using hlen
      have hv := hvals v (List.mem_cons_self _ _)
      have hmem := rendered_mem_allParts ps vs hlen'
        (fun w hw => hvals w (List.mem_cons_of_mem _ hw))
      simp only [renderMix, List.map_cons, allParts]
      have hk : v.length ≤ (v ++ renderMix ps (vs.map some)).length := by
        simp
      exact mem_allLens (allParts ps) v (renderMix ps (vs.map some)) vs
        hv.1 hv.2 hmem _ hk

/-- With a unique split, the greedy matcher returns exactly it. -/
theorem matchParts_of_unique (parts : List Part) (cs : List Char)
    (vals : List (List Char)) (hmem : vals ∈ allParts parts cs)
    (huniq : (allParts parts cs).length = 1) :
    matchParts parts cs = some vals := by
  obtain ⟨a, ha⟩ := List.length_eq_one.mp huniq
  rw [ha] at hmem
  simp only [List.mem_singleton] at hmem
  rw [matchParts_eq_head, ha, hmem]
  rfl

/-! ### The replacement, specialised to `$`-free replacements -/

/-- `replaceFirst` with the replacement spliced verbatim — the behaviour of
`String.replace` whenever the replacement contains no `$`. -/
def cleanReplace (s pat rep : List Char) : List Char :=
  match firstOccur s pat with
  | none => s
  | some (before, after) => before ++ rep ++ after

theorem getSubstitution_of_clean (matched before after : List Char) :
    ∀ rep : List Char, '$' ∉ rep →
      getSubstitution matched before after rep = rep
  | [], _ => rfl
  | c :: r, h => by
    have hc : c ≠ '$' := fun hh => h (hh ▸ List.mem_cons_self _ _)
    have hr : '$' ∉ r := fun hh => h (List.mem_cons_of_mem _ hh)
    cases r with
    | nil => simp [getSubstitution, hc]
    | cons c' r' =>
      rw [show getSubstitution matched before after (c :: c' :: r') =
          c :: getSubstitution matched before after (c' :: r') by
        simp [getSubstitution, hc]]
      rw [getSubstitution_of_clean matched before after (c' :: r') hr]

theorem replaceFirst_of_clean (s pat rep : List Char) (h : '$' ∉ rep) :
    replaceFirst s pat rep = cleanReplace s pat rep := by
  unfold replaceFirst cleanReplace
  cases firstOccur s pat with
  | none => rfl
  | some p =>
    rcases p with ⟨before, after⟩
    simp [getSubstitution_of_clean pat before after rep h]

theorem cleanReplace_nil (pat rep : List Char) (h : pat ≠ []) :
    cleanReplace [] pat rep = [] := by
  cases pat with
  | nil => exact absurd rfl h
  | cons p ps => rfl

theorem cleanReplace_cons (c : Char) (s pat rep : List Char)
    (h : pat.isPrefixOf (c :: s) = false) :
    cleanReplace (c :: s) pat rep = c :: cleanReplace s pat rep := by
  simp only [cleanReplace, firstOccur, h, Bool.false_eq_true, if_false]
  cases hfo : firstOccur s pat with
  | none => simp
  | some p =>
    rcases p with ⟨before, after⟩
    simp

theorem cleanReplace_skip (w s pat rep : List Char) (hw : '[' ∉ w)
    (hpat : pat.head? = some '[') :
    cleanReplace (w ++ s) pat rep = w ++ cleanReplace s pat rep := by
  induction w with
  | nil => simp
  | cons c w ih =>
    have hc : c ≠ '[' := fun hh => hw (hh ▸ List.mem_cons_self _ _)
    have hw' : '[' ∉ w := fun hh => hw (List.mem_cons_of_mem _ hh)
    have hpfx : pat.isPrefixOf (c :: (w ++ s)) = false := by
      cases pat with
      | nil => simp at hpat
      | cons p ps =>
        have hp : p = '[' := by simpa using hpat
        simp [List.isPrefixOf, hp, Ne.symm hc]
    rw [List.cons_append, cleanReplace_cons c (w ++ s) pat rep hpfx,
      ih hw']
    simp

theorem cleanReplace_at_prefix (pat t rep : List Char) :
    cleanReplace (pat ++ t) pat rep = rep ++ t := by
  have hpfx : pat.isPrefixOf (pat ++ t) = true := by
    rw [List.isPrefixOf_iff_prefix]
    exact List.prefix_append pat t
  have hfo : firstOccur (pat ++ t) pat = some ([], t) := by
    rw [firstOccur.eq_def, hpfx]
    simp [List.drop_left]
  show (match firstOccur (pat ++ t) pat with
    | none => pat ++ t
    | some (before, after) => before ++ rep ++ after) = rep ++ t
  rw [hfo]
  simp

/-- The placeholder texts of two distinct `]`-free names never overlap:
`[k]` is not a prefix of `[n]…` when `k ≠ n`. -/
theorem not_prefixOf_name :
    ∀ (k n R : List Char), ']' ∉ k → ']' ∉ n → k ≠ n →
      (k ++ [']']).isPrefixOf (n ++ ']' :: R) = false
  | [], [], R, _, _, hne => absurd rfl hne
  | [], d :: n', R, _, hn, _ => by
    have hd : d ≠ ']' := fun hh => hn (hh ▸ List.mem_cons_self _ _)
    simp [List.isPrefixOf, Ne.symm hd]
  | c :: k', [], R, hk, _, _ => by
    have hc : c ≠ ']' := fun hh => hk (hh ▸ List.mem_cons_self _ _)
    simp [List.isPrefixOf, hc]
  | c :: k', d :: n', R, hk, hn, hne => by
    have hk' : ']' ∉ k' := fun hh => hk (List.mem_cons_of_mem _ hh)
    have hn' : ']' ∉ n' := fun hh => hn (List.mem_cons_of_mem _ hh)
    by_cases hcd : c = d
    · subst hcd
      have hne' : k' ≠ n' := fun hh => hne (hh ▸ rfl)
      simp [List.isPrefixOf, not_prefixOf_name k' n' R hk' hn' hne']
    · simp [List.isPrefixOf, hcd]

/-! ### Substituting one key into a mixed rendering -/

/-- Substitute `v` for the first *unsubstituted* hole named `k` (the
per-hole state view of what one `replace('[k]', v)` call does to the
rendered string). -/
def subK : List Part → List (Option (List Char)) → List Char → List Char →
    List (Option (List Char))
  | [], σ, _, _ => σ
  | .lit _ :: ps, σ, k, v => subK ps σ k v
  | .hole _ :: _, [], _, _ => []
  | .hole n :: ps, w :: σ, k, v =>
    match w with
    | some w' => some w' :: subK ps σ k v
    | none => if n = k then some v :: σ else none :: subK ps σ k v

theorem subK_length :
    ∀ (parts : List Part) (σ : List (Option (List Char))) (k v : List Char),
      (subK parts σ k v).length = σ.length
  | [], σ, _, _ => rfl
  | .lit _ :: ps, σ, k, v => subK_length ps σ k v
  | .hole _ :: _, [], _, _ => rfl
  | .hole n :: ps, w :: σ, k, v => by
    cases w with
    | some w' => simp [subK, subK_length ps σ k v]
    | none =>
      by_cases hnk : n = k <;> simp [subK, hnk, subK_length ps σ k v]

theorem subK_values :
    ∀ (parts : List Part) (σ : List (Option (List Char))) (k v w : List Char),
      some w ∈ subK parts σ k v → some w ∈ σ ∨ w = v
  | [], σ, _, _, w => fun h => Or.inl h
  | .lit _ :: ps, σ, k, v, w => subK_values ps σ k v w
  | .hole _ :: _, [], _, _, w => by simp [subK]
  | .hole n :: ps, w₀ :: σ, k, v, w => by
    cases w₀ with
    | some w' =>
      intro h
      rcases List.mem_cons.mp h with h | h
      · exact Or.inl (List.mem_cons.mpr (Or.inl h))
      · rcases subK_values ps σ k v w h with h' | h'
        · exact Or.inl (List.mem_cons.mpr (Or.inr h'))
        · exact Or.inr h'
    | none =>
      by_cases hnk : n = k
      · simp only [subK, if_pos hnk]
        intro h
        rcases List.mem_cons.mp h with h | h
        · exact Or.inr (by simpa using h)
        · exact Or.inl (List.mem_cons.mpr (Or.inr h))
      · simp only [subK, if_neg hnk]
        intro h
        rcases List.mem_cons.mp h with h | h
        · exact absurd h.symm (by simp)
        · rcases subK_values ps σ k v w h with h' | h'
          · exact Or.inl (List.mem_cons.mpr (Or.inr h'))
          · exact Or.inr h'

/-- One `replace('[k]', v)` on a mixed rendering substitutes exactly the
first unsubstituted hole named `k` (rule out every earlier position: the
pattern starts with `[`, which occurs in neither literals, values, nor
names, and two distinct `]`-free names cannot shadow each other). -/
theorem cleanReplace_renderMix :
    ∀ (parts : List Part) (σ : List (Option (List Char)))
      (k v : List Char),
      σ.length = countHoles parts →
      (∀ c, Part.lit c ∈ parts → c ≠ '[') →
      (∀ n ∈ holeNames parts, ']' ∉ n ∧ '[' ∉ n) →
      (∀ w, some w ∈ σ → '[' ∉ w) →
      ']' ∉ k →
      cleanReplace (renderMix parts σ) ('[' :: (k ++ [']'])) v =
        renderMix parts (subK parts σ k v)
  | [], σ, k, v => by
    intro hσ _ _ _ _
    simp only [renderMix, subK]
    exact cleanReplace_nil _ _ (by simp)
  | .lit c :: ps, σ, k, v => by
    intro hσ hlits hnames hσv hk
    have hc : c ≠ '[' := hlits c (List.mem_cons_self _ _)
    have hσ' : σ.length = countHoles ps := by
      simpa [countHoles, holeNames] using hσ
    have hpfx : ('[' :: (k ++ [']'])).isPrefixOf
        (c :: renderMix ps σ) = false := by
      simp [List.isPrefixOf, Ne.symm hc]
    simp only [renderMix, subK]
    rw [cleanReplace_cons _ _ _ _ hpfx]
    rw [cleanReplace_renderMix ps σ k v hσ'
      (fun c' hc' => hlits c' (List.mem_cons_of_mem _ hc'))
      (fun n hn => hnames n (by simp [holeNames] at hn ⊢; exact hn))
      hσv hk]
  | .hole n :: ps, [], k, v => by
    intro hσ _ _ _ _
    simp [countHoles, holeNames] at hσ
  | .hole n :: ps, w :: σ, k, v => by
    intro hσ hlits hnames hσv hk
    have hσ' : σ.length = countHoles ps := by
      simpa [countHoles, holeNames] using hσ
    have hn := hnames n (by simp [holeNames])
    have hnames' : ∀ m ∈ holeNames ps, ']' ∉ m ∧ '[' ∉ m := by
      intro m hm
      exact hnames m (by simp [holeNames] at hm ⊢; exact Or.inr hm)
    have hlits' : ∀ c, Part.lit c ∈ ps → c ≠ '[' :=
      fun c hc => hlits c (List.mem_cons_of_mem _ hc)
    cases w with
    | some w' =>
      have hw' : '[' ∉ w' := hσv w' (List.mem_cons_self _ _)
      have hσv' : ∀ u, some u ∈ σ → '[' ∉ u :=
        fun u hu => hσv u (List.mem_cons_of_mem _ hu)
      simp only [renderMix, subK]
      rw [cleanReplace_skip w' (renderMix ps σ) ('[' :: (k ++ [']'])) v
        hw' rfl]
      rw [cleanReplace_renderMix ps σ k v hσ' hlits' hnames' hσv' hk]
    | none =>
      have hσv' : ∀ u, some u ∈ σ → '[' ∉ u :=
        fun u hu => hσv u (List.mem_cons_of_mem _ hu)
      by_cases hnk : n = k
      · subst hnk
        simp only [renderMix, subK, if_pos rfl]
        have : ('[' :: (n ++ [']'])) ++ renderMix ps σ =
            '[' :: (n ++ ']' :: renderMix ps σ) := by simp
        rw [← this, cleanReplace_at_prefix]
      · simp only [renderMix, subK, if_neg hnk]
        have hpfx : ('[' :: (k ++ [']'])).isPrefixOf
            ('[' :: (n ++ ']' :: renderMix ps σ)) = false := by
          simp only [List.isPrefixOf, beq_self_eq_true, Bool.true_and]
          exact not_prefixOf_name k n (renderMix ps σ) hk hn.1
            (fun hh => hnk hh.symm)
        rw [cleanReplace_cons _ _ _ _ hpfx]
        rw [cleanReplace_skip n (']' :: renderMix ps σ)
          ('[' :: (k ++ [']'])) v hn.2 rfl]
        have hpfx2 : ('[' :: (k ++ [']'])).isPrefixOf
            (']' :: renderMix ps σ) = false := by
          simp [List.isPrefixOf]
        rw [cleanReplace_cons _ _ _ _ hpfx2]
        rw [cleanReplace_renderMix ps σ k v hσ' hlits' hnames' hσv' hk]

/-! ### Iterating the substitutions (`Object.entries(params).forEach`) -/

/-- The per-hole state view of the whole `forEach` loop. -/
def subKs (parts : List Part) (σ : List (Option (List Char)))
    (pairs : List (List Char × List Char)) : List (Option (List Char)) :=
  pairs.foldl (fun σ kv => subK parts σ kv.1 kv.2) σ

theorem foldl_cleanReplace (parts : List Part) :
    ∀ (pairs : List (List Char × List Char))
      (σ : List (Option (List Char))),
      σ.length = countHoles parts →
      (∀ c, Part.lit c ∈ parts → c ≠ '[') →
      (∀ n ∈ holeNames parts, ']' ∉ n ∧ '[' ∉ n) →
      (∀ w, some w ∈ σ → '[' ∉ w) →
      (∀ kv ∈ pairs, ']' ∉ kv.1 ∧ '[' ∉ kv.2) →
      pairs.foldl
        (fun acc kv => cleanReplace acc ('[' :: (kv.1 ++ [']'])) kv.2)
        (renderMix parts σ) = renderMix parts (subKs parts σ pairs)
  | [], σ => by
    intros
    simp [subKs]
  | (k, v) :: pairs, σ => by
    intro hσ hlits hnames hσv hpairs
    have hkv := hpairs (k, v) (List.mem_cons_self _ _)
    simp only [List.foldl_cons]
    rw [cleanReplace_renderMix parts σ k v hσ hlits hnames hσv hkv.1]
    rw [foldl_cleanReplace parts pairs (subK parts σ k v)
      (by rw [subK_length]; exact hσ) hlits hnames
      (fun w hw => (subK_values parts σ k v w hw).elim
        (fun h => hσv w h) (fun h => h ▸ hkv.2))
      (fun kv' hkv' => hpairs kv' (List.mem_cons_of_mem _ hkv'))]
    rfl

/-- `formatPathname` over `$`-free stringified values is the iterated clean
replacement. -/
theorem formatPathname_eq_cleanFold :
    ∀ (params : List (List Char × ParamValue)) (t : List Char),
      (∀ kv ∈ params, '$' ∉ kv.2.toChars) →
      formatPathname t (some params) =
        (params.map (fun kv => (kv.1, kv.2.toChars))).foldl
          (fun acc kv => cleanReplace acc ('[' :: (kv.1 ++ [']'])) kv.2) t
  | [], t => fun _ => rfl
  | (k, v) :: params, t => by
    intro h
    have hclean := h (k, v) (List.mem_cons_self _ _)
    show (((k, v) :: params).foldl
        (fun acc kv =>
          replaceFirst acc ('[' :: (kv.1 ++ [']'])) kv.2.toChars) t) = _
    simp only [List.foldl_cons, List.map_cons]
    rw [replaceFirst_of_clean _ _ _ hclean]
    exact formatPathname_eq_cleanFold params
      (cleanReplace t ('[' :: (k ++ [']'])) v.toChars)
      (fun kv hkv => h kv (List.mem_cons_of_mem _ hkv))

/-! ### Characterising the final per-hole state via `lookup` -/

theorem lookup_cons_self (k v : List Char)
    (es : List (List Char × List Char)) :
    List.lookup k ((k, v) :: es) = some v := by
  simp [List.lookup]

theorem lookup_cons_ne (a k : List Char) (h : a ≠ k) (v : List Char)
    (es : List (List Char × List Char)) :
    List.lookup a ((k, v) :: es) = List.lookup a es := by
  simp [List.lookup, beq_eq_false_iff_ne.mpr h]

/-- `subK` on a per-hole state given pointwise by `f`, for distinct hole
names: the hole named `k` (if any) receives `v` when unfilled. -/
theorem subK_map :
    ∀ (parts : List Part) (f : List Char → Option (List Char))
      (k v : List Char), (holeNames parts).Nodup →
      subK parts ((holeNames parts).map f) k v =
        (holeNames parts).map
          (fun n => if n = k then some ((f k).getD v) else f n)
  | [], f, k, v => fun _ => rfl
  | .lit c :: ps, f, k, v => fun hnodup => by
    have : holeNames (Part.lit c :: ps) = holeNames ps := by
      simp [holeNames]
    rw [this]
    show subK ps ((holeNames ps).map f) k v = _
    exact subK_map ps f k v (by rwa [this] at hnodup)
  | .hole n :: ps, f, k, v => fun hnodup => by
    have hh : holeNames (Part.hole n :: ps) = n :: holeNames ps := by
      simp [holeNames]
    rw [hh] at hnodup ⊢
    have hnmem : n ∉ holeNames ps := (List.nodup_cons.mp hnodup).1
    have hnodup' : (holeNames ps).Nodup := (List.nodup_cons.mp hnodup).2
    simp only [List.map_cons]
    cases hfn : f n with
    | some w =>
      have hFn : (if n = k then some ((f k).getD v) else some w) =
          some w := by
        by_cases hnk : n = k
        · subst hnk
          simp [hfn]
        · simp [hnk]
      show some w :: subK ps ((holeNames ps).map f) k v = _
      rw [subK_map ps f k v hnodup', hFn]
    | none =>
      by_cases hnk : n = k
      · subst hnk
        show (if n = n then some v :: (holeNames ps).map f
            else none :: subK ps ((holeNames ps).map f) n v) = _
        rw [if_pos rfl]
        simp only [if_pos rfl, hfn, Option.getD_none]
        congr 1
        refine List.map_eq_map_iff.mpr ?_
        intro m hm
        have : m ≠ n := fun hh => hnmem (hh ▸ hm)
        simp [this]
      · show (if n = k then some v :: (holeNames ps).map f
            else none :: subK ps ((holeNames ps).map f) k v) = _
        rw [if_neg hnk]
        rw [subK_map ps f k v hnodup']
        simp [hnk, hfn]

/-- The whole loop on a pointwise state: every pair fills its hole, read
back by `lookup`. -/
theorem subKs_map_lookup (parts : List Part)
    (hnodup : (holeNames parts).Nodup) :
    ∀ (pairs : List (List Char × List Char))
      (f : List Char → Option (List Char)),
      (pairs.map Prod.fst).Nodup →
      (∀ kv ∈ pairs, f kv.1 = none) →
      subKs parts ((holeNames parts).map f) pairs =
        (holeNames parts).map (fun n => (f n).or (pairs.lookup n))
  | [], f => by
    intro _ _
    simp only [subKs, List.foldl_nil]
    refine List.map_eq_map_iff.mpr ?_
    intro n _
    simp [List.lookup]
  | (k, v) :: pairs, f => by
    intro hkeys hfnone
    have hk0 : f k = none := hfnone (k, v) (List.mem_cons_self _ _)
    have hkeys' : (pairs.map Prod.fst).Nodup := by
      simp only [List.map_cons, List.nodup_cons] at hkeys
      exact hkeys.2
    have hkmem : k ∉ pairs.map Prod.fst := by
      simp only [List.map_cons, List.nodup_cons] at hkeys
      exact hkeys.1
    show subKs parts (subK parts ((holeNames parts).map f) k v) pairs = _
    rw [subK_map parts f k v hnodup]
    have hF : (holeNames parts).map
        (fun n => if n = k then some ((f k).getD v) else f n) =
        (holeNames parts).map (fun n => if n = k then some v else f n) := by
      refine List.map_eq_map_iff.mpr ?_
      intro n _
      simp [hk0]
    rw [hF]
    rw [subKs_map_lookup parts hnodup pairs
      (fun n => if n = k then some v else f n) hkeys'
      (fun kv hkv => by
        have : kv.1 ≠ k := fun hh =>
          hkmem (hh ▸ List.mem_map_of_mem Prod.fst hkv)
        simp [this]
        exact hfnone kv (List.mem_cons_of_mem _ hkv))]
    refine List.map_eq_map_iff.mpr ?_
    intro n _
    by_cases hnk : n = k
    · subst hnk
      simp [hk0, lookup_cons_self]
    · simp only [if_neg hnk]
      rw [lookup_cons_ne n k hnk]

/-- Reading back an in-order zip of distinct keys. -/
theorem map_lookup_zip :
    ∀ (names vals : List (List Char)), names.Nodup →
      names.length = vals.length →
      names.map (fun n => (names.zip vals).lookup n) = vals.map some
  | [], vals => by
    intro _ hlen
    have : vals = [] := List.length_eq_zero.mp hlen.symm
    subst this
    rfl
  | n :: names, vals => by
    intro hnodup hlen
    cases vals with
    | nil => simp at hlen
    | cons v vs =>
      have hnodup' : names.Nodup := (List.nodup_cons.mp hnodup).2
      have hnmem : n ∉ names := (List.nodup_cons.mp hnodup).1
      have hlen' : names.length = vs.length := by simpa using hlen
      simp only [List.zip_cons_cons, List.map_cons, lookup_cons_self]
      congr 1
      have : names.map (fun m =>
          List.lookup m ((n, v) :: names.zip vs)) =
          names.map (fun m => (names.zip vs).lookup m) := by
        refine List.map_eq_map_iff.mpr ?_
        intro m hm
        exact lookup_cons_ne m n (fun hh => hnmem (hh ▸ hm)) v _
      rw [this, map_lookup_zip names vs hnodup' hlen']

/-! ### The template parses back to itself -/

theorem findRBracket_spec :
    ∀ (cs n r : List Char), findRBracket cs = some (n, r) →
      cs = n ++ ']' :: r ∧ ']' ∉ n
  | [], n, r => by simp [findRBracket]
  | c :: rest, n, r => by
    by_cases hc : c = ']'
    · subst hc
      simp only [findRBracket, if_pos rfl, Option.some.injEq, Prod.mk.injEq]
      rintro ⟨rfl, rfl⟩
      simp
    · simp only [findRBracket, if_neg hc, Option.map_eq_some']
      rintro ⟨⟨n', r'⟩, hfind, heq⟩
      obtain ⟨hn, hr⟩ := Prod.mk.injEq .. ▸ heq
      subst hn
      subst hr
      obtain ⟨hcs, hmem⟩ := findRBracket_spec rest n' r' hfind
      constructor
      · rw [hcs]
        rfl
      · intro hmem'
        rcases List.mem_cons.mp hmem' with h | h
        · exact hc h.symm
        · exact hmem h

theorem renderMix_parseParts :
    ∀ cs : List Char, renderMix (parseParts cs) [] = cs
  | [] => rfl
  | c :: cs' => by
    rw [parseParts_cons]
    by_cases hc : c = '['
    · rw [if_pos hc]
      cases hfind : findRBracket cs' with
      | none =>
        simp only [renderMix]
        rw [renderMix_parseParts cs', hc]
      | some p =>
        rcases p with ⟨name, rest⟩
        obtain ⟨hcs, _⟩ := findRBracket_spec cs' name rest hfind
        by_cases hname : name = []
        · simp only [if_pos hname, renderMix]
          rw [renderMix_parseParts cs', hc]
        · simp only [if_neg hname, renderMix]
          rw [renderMix_parseParts rest, hc, hcs]
    · rw [if_neg hc]
      simp only [renderMix]
      rw [renderMix_parseParts cs']
termination_by cs => cs.length
decreasing_by
  all_goals simp_wf
  all_goals try omega
  all_goals
    exact Nat.lt_trans (findRBracket_length hfind) (Nat.lt_succ_self _)

theorem parseParts_hole_names :
    ∀ (cs n : List Char), Part.hole n ∈ parseParts cs →
      n ≠ [] ∧ ']' ∉ n
  | [], n => by simp [parseParts, parsePartsFuel]
  | c :: cs', n => by
    rw [parseParts_cons]
    by_cases hc : c = '['
    · rw [if_pos hc]
      cases hfind : findRBracket cs' with
      | none =>
        intro hmem
        rcases List.mem_cons.mp hmem with h | h
        · exact absurd h (by simp)
        · exact parseParts_hole_names cs' n h
      | some p =>
        rcases p with ⟨name, rest⟩
        obtain ⟨_, hnb⟩ := findRBracket_spec cs' name rest hfind
        show (Part.hole n ∈
            (if name = [] then Part.lit '[' :: parseParts cs'
             else Part.hole name :: parseParts rest)) →
          n ≠ [] ∧ ']' ∉ n
        by_cases hname : name = []
        · rw [if_pos hname]
          intro hmem
          rcases List.mem_cons.mp hmem with h | h
          · exact absurd h (by simp)
          · exact parseParts_hole_names cs' n h
        · rw [if_neg hname]
          intro hmem
          rcases List.mem_cons.mp hmem with h | h
          · have : n = name := by simpa using h
            subst this
            exact ⟨hname, hnb⟩
          · exact parseParts_hole_names rest n h
    · rw [if_neg hc]
      intro hmem
      rcases List.mem_cons.mp hmem with h | h
      · exact absurd h (by simp)
      · exact parseParts_hole_names cs' n h
termination_by cs _ => cs.length
decreasing_by
  all_goals simp_wf
  all_goals try omega
  all_goals
    exact Nat.lt_trans (findRBracket_length hfind) (Nat.lt_succ_self _)

/-- Rendering with any all-`none` state is rendering the bare template. -/
theorem renderMix_none :
    ∀ (parts : List Part) (m : Nat),
      renderMix parts (List.replicate m none) = renderMix parts []
  | [], m => by cases m <;> rfl
  | .lit c :: ps, m => by
    simp only [renderMix]
    rw [renderMix_none ps m]
  | .hole n :: ps, m => by
    cases m with
    | zero => rfl
    | succ m =>
      simp only [List.replicate, renderMix]
      rw [renderMix_none ps m]

/-- Decidable form of "no literal `[` in the parsed template". -/
def litOk : Part → Bool
  | .lit c => c ≠ '['
  | .hole _ => true

theorem litOk_spec (parts : List Part) (h : ∀ p ∈ parts, litOk p = true) :
    ∀ c, Part.lit c ∈ parts → c ≠ '[' := by
  intro c hc
  have := h _ hc
  simpa [litOk] using this

/-- Decidable form of "every literal character of the parsed template is
regex-inert": the domain on which `matchParts`/`allParts` are the exact
semantics of the pattern built by `templateToRegex` (outside it the
unescaped `RegExp` reinterprets the character or throws). -/
def litRegexOk : Part → Bool
  | .lit c => ¬ (c ∈ regexSpecial)
  | .hole _ => true

theorem litOk_of_litRegexOk (p : Part) (h : litRegexOk p = true) :
    litOk p = true := by
  cases p with
  | lit c =>
    have hmem : c ∉ regexSpecial := by simpa [litRegexOk] using h
    have : c ≠ '[' := fun hh => hmem (by rw [hh]; simp [regexSpecial])
    simpa [litOk] using this
  | hole n => rfl

theorem mem_holeNames (parts : List Part) (n : List Char) :
    n ∈ holeNames parts ↔ Part.hole n ∈ parts := by
  simp only [holeNames, List.mem_filterMap]
  constructor
  · rintro ⟨p, hp, hf⟩
    cases p with
    | lit c => simp at hf
    | hole m =>
      have : m = n := by simpa using hf
      exact this ▸ hp
  · intro h
    exact ⟨.hole n, h, rfl⟩

theorem strippedNames_eq (parts : List Part)
    (h : ∀ n ∈ holeNames parts, '[' ∉ n ∧ ']' ∉ n) :
    strippedNames parts = holeNames parts := by
  rw [strippedNames]
  have hid : ∀ n ∈ holeNames parts,
      n.filter (fun c => decide (c ≠ '[' ∧ c ≠ ']')) = id n := by
    intro n hn
    refine List.filter_eq_self.mpr ?_
    intro c hc
    have h1 : c ≠ '[' := fun hh => (h n hn).1 (hh ▸ hc)
    have h2 : c ≠ ']' := fun hh => (h n hn).2 (hh ▸ hc)
    simp [h1, h2]
  rw [List.map_eq_map_iff.mpr hid, List.map_id]

theorem objSet_append :
    ∀ (m : List (List Char × List Char)) (k v : List Char),
      k ∉ m.map Prod.fst → objSet m k v = m ++ [(k, v)]
  | [], k, v => fun _ => rfl
  | (k', v') :: m', k, v => fun h => by
    have hk : k' ≠ k := by
      intro hh
      exact absurd (by simp [hh]) h
    have h' : k ∉ m'.map Prod.fst := by
      intro hh
      exact absurd (by simp [hh]) h
    simp [objSet, hk, objSet_append m' k v h']

theorem objSet_foldl :
    ∀ (pairs acc : List (List Char × List Char)),
      (pairs.map Prod.fst).Nodup →
      (∀ kv ∈ pairs, kv.1 ≠ []) →
      (∀ x ∈ acc.map Prod.fst, x ∉ pairs.map Prod.fst) →
      pairs.foldl
        (fun m kv => if kv.1 = [] then m else objSet m kv.1 kv.2) acc =
        acc ++ pairs
  | [], acc => by
    intros
    simp
  | (k, v) :: pairs, acc => by
    intro hnodup hne hdisj
    have hknotacc : k ∉ acc.map Prod.fst := by
      intro hh
      exact hdisj k hh (by simp)
    have hkv1 : k ≠ [] := hne (k, v) (List.mem_cons_self _ _)
    simp only [List.foldl_cons, if_neg hkv1]
    rw [objSet_append acc k v hknotacc]
    rw [objSet_foldl pairs (acc ++ [(k, v)])
      (by simpa using (List.nodup_cons.mp (by simpa using hnodup)).2)
      (fun kv hkv => hne kv (List.mem_cons_of_mem _ hkv))
      (by
        intro x hx
        simp only [List.map_append, List.mem_append] at hx
        rcases hx with hx | hx
        · intro hmem
          exact hdisj x hx (by simp [hmem])
        · have hxk : x = k := by simpa using hx
          subst hxk
          exact (List.nodup_cons.mp (by simpa using hnodup)).1)]
    simp

/-! ## Claims about `formatPathname` and `getRouteParams` -/

/-- Claim C3, as stated, is false on the code: with template `/[a]/[b]` and
params `{a: "x[b]", b: "5"}` every stringified value is non-empty and
slash-free and the filled-in pathname `/x5/[b]` matches the template
unambiguously (exactly one split), yet the round trip yields
`{a: "x5", b: "[b]"}` instead of the original params — the first
`replace` plants the text `[b]` inside the pathname and the second
`replace` then substitutes *that* occurrence instead of the template's
placeholder. -/
theorem roundtrip_counterexample :
    ("x[b]".toList ≠ [] ∧ ("x[b]".toList).contains '/' = false) ∧
    ("5".toList ≠ [] ∧ ("5".toList).contains '/' = false) ∧
    (allParts (parseParts "/[a]/[b]".toList)
      (formatPathname "/[a]/[b]".toList
        (some [("a".toList, .str "x[b]"),
               ("b".toList, .str "5")]))).length = 1 ∧
    getRouteParams "/[a]/[b]".toList
        (formatPathname "/[a]/[b]".toList
          (some [("a".toList, .str "x[b]"), ("b".toList, .str "5")])) ≠
      some [("a".toList, "x[b]".toList), ("b".toList, "5".toList)] := by
  decide

/-- Claim C3 (corrected): the round trip
`getRouteParams(t, formatPathname(t, params))` recovers the original
params with every value stringified, provided additionally that the
placeholder names are pairwise distinct and bracket-free, every literal
character of the template lies outside `regexSpecial` (the source feeds
the template to `RegExp` unescaped, so a literal regex metacharacter
changes the real pattern — or makes its construction throw — and the
round trip then fails or errors), and each stringified value contains no
`[` and no `$` (on top of the claim's conditions: values non-empty and
slash-free, and the filled-in pathname matching the template
unambiguously).  On the hypothesised domain the embedded matcher is the
exact semantics of the generated regex. -/
theorem formatPathname_getRouteParams_roundtrip
    (t : List Char) (params : List (List Char × ParamValue))
    (h1 : params.map Prod.fst = holeNames (parseParts t))
    (h2 : (holeNames (parseParts t)).Nodup)
    (h3 : ∀ n ∈ holeNames (parseParts t), '[' ∉ n)
    (h4 : ∀ p ∈ parseParts t, litRegexOk p = true)
    (h5 : ∀ kv ∈ params, kv.2.toChars ≠ [] ∧
      (kv.2.toChars).contains '/' = false ∧ '[' ∉ kv.2.toChars ∧
      '$' ∉ kv.2.toChars)
    (h6 : (allParts (parseParts t)
      (formatPathname t (some params))).length = 1) :
    getRouteParams t (formatPathname t (some params)) =
      some (params.map (fun kv => (kv.1, kv.2.toChars))) := by
  have hnames' : ∀ n ∈ holeNames (parseParts t), n ≠ [] ∧ ']' ∉ n :=
    fun n hn => parseParts_hole_names t n ((mem_holeNames _ n).mp hn)
  have hkeys : (params.map (fun kv => (kv.1, kv.2.toChars))).map
      Prod.fst = holeNames (parseParts t) := by
    rw [← h1, List.map_map]
    rfl
  have hpairs_zip : (holeNames (parseParts t)).zip
      (params.map (fun kv => kv.2.toChars)) =
      params.map (fun kv => (kv.1, kv.2.toChars)) := by
    rw [← h1]
    exact List.zip_map' _ _ params
  have hlen_nv : (holeNames (parseParts t)).length =
      (params.map (fun kv => kv.2.toChars)).length := by
    rw [← h1]
    simp
  have hσ0 : t = renderMix (parseParts t)
      ((holeNames (parseParts t)).map (fun _ => none)) := by
    rw [List.map_const', renderMix_none]
    exact (renderMix_parseParts t).symm
  have hsubKs : subKs (parseParts t)
      ((holeNames (parseParts t)).map (fun _ => none))
      (params.map (fun kv => (kv.1, kv.2.toChars))) =
      (params.map (fun kv => kv.2.toChars)).map some := by
    rw [subKs_map_lookup (parseParts t) h2 _ (fun _ => none)
      (by rw [hkeys]; exact h2) (fun _ _ => rfl)]
    have : (holeNames (parseParts t)).map
        (fun n => (Option.or none
          ((params.map (fun kv => (kv.1, kv.2.toChars))).lookup n))) =
        (holeNames (parseParts t)).map
          (fun n => ((holeNames (parseParts t)).zip
            (params.map (fun kv => kv.2.toChars))).lookup n) := by
      refine List.map_eq_map_iff.mpr ?_
      intro n _
      rw [hpairs_zip]
      rfl
    rw [this, map_lookup_zip _ _ h2 hlen_nv]
  have hformat : formatPathname t (some params) =
      renderMix (parseParts t)
        ((params.map (fun kv => kv.2.toChars)).map some) := by
    rw [formatPathname_eq_cleanFold params t
      (fun kv hkv => (h5 kv hkv).2.2.2)]
    conv_lhs => rw [hσ0]
    rw [foldl_cleanReplace (parseParts t) _ _
      (by simp [countHoles])
      (litOk_spec _ (fun p hp => litOk_of_litRegexOk p (h4 p hp)))
      (fun n hn => ⟨(hnames' n hn).2, h3 n hn⟩)
      (by intro w hw; simp at hw)
      (by
        intro kv hkv
        obtain ⟨kv0, hkv0, rfl⟩ := List.mem_map.mp hkv
        refine ⟨?_, (h5 kv0 hkv0).2.2.1⟩
        have : kv0.1 ∈ holeNames (parseParts t) := by
          rw [← h1]
          exact List.mem_map_of_mem Prod.fst hkv0
        exact (hnames' kv0.1 this).2)]
    rw [hsubKs]
  have hvalsok : ∀ v ∈ params.map (fun kv => kv.2.toChars),
      v ≠ [] ∧ v.contains '/' = false := by
    intro v hv
    obtain ⟨kv, hkv, rfl⟩ := List.mem_map.mp hv
    exact ⟨(h5 kv hkv).1, (h5 kv hkv).2.1⟩
  have hlenv : (params.map (fun kv => kv.2.toChars)).length =
      countHoles (parseParts t) := by
    simp [countHoles, ← h1]
  have hmem := rendered_mem_allParts (parseParts t) _ hlenv hvalsok
  rw [← hformat] at hmem
  have hmatch := matchParts_of_unique (parseParts t) _ _ hmem h6
  simp only [getRouteParams, hmatch]
  rw [strippedNames_eq (parseParts t)
    (fun n hn => ⟨h3 n hn, (hnames' n hn).2⟩)]
  rw [objSet_foldl _ []
    (by
      rw [List.map_fst_zip _ _ (le_of_eq hlen_nv)]
      exact h2)
    (by
      rintro ⟨a, b⟩ hab
      exact (hnames' a (List.mem_zip hab).1).1)
    (by intro x hx; simp at hx)]
  rw [List.nil_append, hpairs_zip]

theorem formatPathname_getRouteParams_roundtrip_witness :
    getRouteParams "/news/[articleSlug]-[articleId]".toList
        (formatPathname "/news/[articleSlug]-[articleId]".toList
          (some [("articleSlug".toList, .str "launchparty"),
                 ("articleId".toList, .num 3)])) =
      some [("articleSlug".toList, "launchparty".toList),
            ("articleId".toList, "3".toList)] := by
  have h := formatPathname_getRouteParams_roundtrip
    "/news/[articleSlug]-[articleId]".toList
    [("articleSlug".toList, .str "launchparty"),
     ("articleId".toList, .num 3)]
    (by decide) (by decide) (by decide) (by decide) (by decide) (by decide)
  exact h.trans (by decide)

/-- Claim C8, as stated, is false on the code: with template `/[a]/[b]` and
params `{a: "x[b]y", b: "z"}` the placeholder `[b]` has its key in the
params, yet it is *not* replaced by `z` — the first substitution plants the
text `[b]` into the result and the second `replace` hits that first
occurrence, producing `/xzy/[b]` rather than `/x[b]y/z`. -/
theorem formatPathname_lenient_counterexample :
    formatPathname "/[a]/[b]".toList
        (some [("a".toList, .str "x[b]y"), ("b".toList, .str "z")]) =
      "/xzy/[b]".toList ∧
    formatPathname "/[a]/[b]".toList
        (some [("a".toList, .str "x[b]y"), ("b".toList, .str "z")]) ≠
      "/x[b]y/z".toList := by
  decide

/-- Claim C8 (corrected): `formatPathname` never raises (it is a total
function); a call with no params returns the template unchanged; and when
the placeholder names are pairwise distinct and bracket-free, the template
has no stray `[` in literal position, the params keys are pairwise distinct
and `]`-free, and no stringified value contains `[` or `$`, each entry of
`params` replaces *the first occurrence* of its `[key]` text — i.e. each
placeholder whose key appears in the params is substituted by its
stringified value and every other placeholder is left literally in
place. -/
theorem formatPathname_lenient
    (t : List Char) (params : List (List Char × ParamValue))
    (h2 : (holeNames (parseParts t)).Nodup)
    (h3 : ∀ n ∈ holeNames (parseParts t), '[' ∉ n)
    (h4 : ∀ p ∈ parseParts t, litOk p = true)
    (hkeys : (params.map Prod.fst).Nodup)
    (hkeysb : ∀ kv ∈ params, ']' ∉ kv.1)
    (hvals : ∀ kv ∈ params, '[' ∉ kv.2.toChars ∧ '$' ∉ kv.2.toChars) :
    formatPathname t none = t ∧
    formatPathname t (some params) =
      renderMix (parseParts t)
        ((holeNames (parseParts t)).map
          (fun n =>
            (params.map (fun kv => (kv.1, kv.2.toChars))).lookup n)) := by
  refine ⟨rfl, ?_⟩
  have hnames' : ∀ n ∈ holeNames (parseParts t), n ≠ [] ∧ ']' ∉ n :=
    fun n hn => parseParts_hole_names t n ((mem_holeNames _ n).mp hn)
  have hσ0 : t = renderMix (parseParts t)
      ((holeNames (parseParts t)).map (fun _ => none)) := by
    rw [List.map_const', renderMix_none]
    exact (renderMix_parseParts t).symm
  have hkeys' : ((params.map (fun kv => (kv.1, kv.2.toChars))).map
      Prod.fst).Nodup := by
    rw [List.map_map]
    exact hkeys
  rw [formatPathname_eq_cleanFold params t
    (fun kv hkv => (hvals kv hkv).2)]
  conv_lhs => rw [hσ0]
  rw [foldl_cleanReplace (parseParts t) _ _
    (by simp [countHoles]) (litOk_spec _ h4)
    (fun n hn => ⟨(hnames' n hn).2, h3 n hn⟩)
    (by intro w hw; simp at hw)
    (by
      intro kv hkv
      obtain ⟨kv0, hkv0, rfl⟩ := List.mem_map.mp hkv
      exact ⟨hkeysb kv0 hkv0, (hvals kv0 hkv0).1⟩)]
  rw [subKs_map_lookup (parseParts t) h2 _ (fun _ => none) hkeys'
    (fun _ _ => rfl)]
  rfl

theorem formatPathname_lenient_witness :
    formatPathname "/news/[articleSlug]-[articleId]".toList none =
      "/news/[articleSlug]-[articleId]".toList ∧
    formatPathname "/news/[articleSlug]-[articleId]".toList
        (some [("articleId".toList, .num 7)]) =
      "/news/[articleSlug]-7".toList := by
  have h := formatPathname_lenient
    "/news/[articleSlug]-[articleId]".toList
    [("articleId".toList, .num 7)]
    (by decide) (by decide) (by decide) (by decide) (by decide) (by decide)
  exact ⟨h.1, h.2.trans (by decide)⟩

/-! ## Middleware data model (`NextIntlMiddlewareConfig.tsx`) -/

/-- `'as-needed' | 'always' | 'never'`. -/
inductive LocalePrefixMode where
  | asNeeded
  | always
  | never
deriving DecidableEq, Repr

structure DomainConfig where
  domain : String
  defaultLocale : String
  /-- `undefined` means the domain supports all locales. -/
  locales : Option (List String)
deriving DecidableEq, Repr

/-- The configuration after `receiveConfig` applied the defaults.
`pathnames` carries only whether the map is configured: its content is
consumed by the `LocalizedPathnames` module, which is not part of the
sources under verification (its results enter `middleware` as inputs). -/
structure MiddlewareConfigWithDefaults where
  locales : List String
  defaultLocale : String
  localePrefix : LocalePrefixMode
  domains : Option (List DomainConfig)
  alternateLinks : Bool
  localeDetection : Bool
  pathnames : Bool
deriving DecidableEq, Repr

/-! ## `utils.tsx`: pathname and domain helpers -/

def ofChars (cs : List Char) : String := String.mk cs

/-- JavaScript `s.split(sep)` for a one-character separator (structural,
so that concrete evaluations reduce in the kernel; agrees with
`String.splitOn` for these inputs). -/
def splitOnChar (sep : Char) : List Char → List (List Char)
  | [] => [[]]
  | c :: cs =>
    if c = sep then [] :: splitOnChar sep cs
    else
      match splitOnChar sep cs with
      | [] => [[c]]
      | g :: gs => (c :: g) :: gs

/-- `pathname.split('/')[1]`. -/
def getLocaleFromPathname (pathname : String) : Option String :=
  ((splitOnChar '/' pathname.toList).map ofChars).get? 1

/-- The first path segment if it is a supported locale, else `undefined`. -/
def getKnownLocaleFromPathname (pathname : String) (locales : List String) :
    Option String :=
  match getLocaleFromPathname pathname with
  | some cand => if locales.contains cand then some cand else none
  | none => none

/-- `s.replace(pat, rep)` on `String`s (first occurrence only). -/
def strReplaceFirst (s pat rep : String) : String :=
  ofChars (replaceFirst s.toList pat.toList rep.toList)

/-- `pathname.replace('/' + pathLocale, '') || '/'`. -/
def getBasePath (pathname pathLocale : String) : String :=
  let r := strReplaceFirst pathname ("/" ++ pathLocale) ""
  if r = "" then "/" else r

/-- Append the search string when it is non-empty (JS truthiness on it). -/
def getPathWithSearch (pathname : String) (search : String) : String :=
  if search = "" then pathname else pathname ++ search

/-- A domain supports a locale when it is the domain's default locale, the
domain declares no restricted list, or the list contains the locale. -/
def isLocaleSupportedOnDomain (locale : String) (domain : DomainConfig) :
    Bool :=
  domain.defaultLocale = locale ||
    (match domain.locales with
     | none => true
     | some ls => ls.contains locale)

/-- `getBestMatchingDomain`: the five-step priority search of the source,
each step only consulted when the previous ones found nothing. -/
def getBestMatchingDomain (curHostDomain : Option DomainConfig)
    (locale : String) (domainConfigs : List DomainConfig) :
    Option DomainConfig :=
  -- Prio 1: Stay on current domain
  let d1 : Option DomainConfig :=
    match curHostDomain with
    | some c => if isLocaleSupportedOnDomain locale c then some c else none
    | none => none
  -- Prio 2: Use alternative domain with matching default locale
  let d2 := match d1 with
    | some d => some d
    | none => domainConfigs.find? (fun c => c.defaultLocale = locale)
  -- Prio 3: Use alternative domain with restricted matching locale
  let d3 := match d2 with
    | some d => some d
    | none =>
      domainConfigs.find? (fun c =>
        c.locales.isSome && (c.locales.getD []).contains locale)
  -- Prio 4: Stay on the current domain if it supports all locales
  let d4 := match d3 with
    | some d => some d
    | none =>
      match curHostDomain with
      | some c => if c.locales = none then some c else none
      | none => none
  -- Prio 5: Use alternative domain that supports all locales
  match d4 with
  | some d => some d
  | none => domainConfigs.find? (fun c => c.locales.isNone)

/-! ## The middleware (`middleware.tsx`)

The embedded `middleware` covers the body of the returned request handler
from the locale resolution onward (a request that fails the deprecated
`_matcher` check is passed through before any of the modelled logic runs;
the claims all concern *processed* requests).  The collaborating functions
that are not part of the sources under verification enter as inputs:

* `resolveLocale` (module `resolveLocale.tsx`): its result — the resolved
  locale and the matched domain record — is the `ResolvedLocale` argument;
* `getLocalizedRedirectPathname` / `getLocalizedRewritePathname` (module
  `LocalizedPathnames.tsx`): their results are the `locRedirect` /
  `locRewrite` arguments, consulted only when a `pathnames` map is
  configured, exactly as in the source;
* `getAlternateLinksHeaderValue` is modelled from the spec below. -/

/-- Modelled from the spec: the locale cookie name is "a fixed constant"
(`COOKIE_LOCALE_NAME` from `../shared/constants`, not under `src/`).  The
concrete value is immaterial to every claim. -/
def COOKIE_LOCALE_NAME : String := "NEXT_LOCALE"

/-- Modelled from the spec: the internal locale header name
(`HEADER_LOCALE_NAME` from `../shared/constants`, not under `src/`). -/
def HEADER_LOCALE_NAME : String := "X-NEXT-INTL-LOCALE"

/-- The per-request signals consumed by the embedded middleware body:
`request.nextUrl.pathname`, `request.nextUrl.search` (either empty or of
the form `?…`), and `request.cookies.get(COOKIE_LOCALE_NAME)?.value`. -/
structure RequestInfo where
  pathname : String
  search : String
  cookieLocale : Option String
deriving DecidableEq, Repr

/-- The output of the external `resolveLocale`: the resolved locale and the
domain record matched for the current host (if any). -/
structure ResolvedLocale where
  locale : String
  domain : Option DomainConfig
deriving DecidableEq, Repr

/-- The routing decision: `NextResponse.rewrite(url)` keeps the url string
it was built from; a redirect records the final pathname, search and
optional host override of the mutated `URL` object; `next` passes the
request through. -/
inductive ResponseKind where
  | rewrite (url : String)
  | redirect (pathname : String) (search : String) (host : Option String)
  | next
deriving DecidableEq, Repr

def ResponseKind.isRedirect : ResponseKind → Bool
  | .redirect _ _ _ => true
  | _ => false

/-- One entry of the alternate-links `Link` response header. -/
structure LinkEntry where
  url : String
  hreflang : String
deriving DecidableEq, Repr

/-- The full response descriptor: the decision plus the side-effect
instructions (`Set-Cookie` as name/value/sameSite, the locale header
injected into the forwarded request — carried only by responses built with
a request init, i.e. rewrites and pass-throughs — and the `Link` header). -/
structure MiddlewareResponse where
  kind : ResponseKind
  cookieSet : Option (String × String × String)
  requestLocaleHeader : Option String
  linkHeader : Option (List LinkEntry)
deriving DecidableEq, Repr

/-- `new URL(url, request.url)` for the relative path-with-search strings
the middleware passes around: split at the first `?` into pathname and
search. -/
def splitSearch (url : String) : String × String :=
  (ofChars (url.toList.takeWhile (fun c => c ≠ '?')),
   ofChars (url.toList.dropWhile (fun c => c ≠ '?')))

/-- The WHATWG `URL.pathname` setter's normalisation for http(s) URLs on
the inputs arising here: the empty path serialises as `/`, and a path not
starting with `/` gets one prepended. -/
def setPathname (p : String) : String :=
  if p = "" then "/"
  else if p.toList.head? = some '/' then p else "/" ++ p

/-- Modelled from the spec: `getAlternateLinksHeaderValue` (module
`getAlternateLinksHeaderValue.tsx`, not under `src/`).  Per the spec the
`Link` header enumerates "one entry per supported locale, plus one
x-default entry", each URL built by re-applying the prefix and pathname
rules for that locale; the claims depend only on the entry count and the
`hreflang` values, so the URL is kept abstract as the request pathname. -/
def getAlternateLinksHeaderValue (config : MiddlewareConfigWithDefaults)
    (request : RequestInfo) : List LinkEntry :=
  config.locales.map (fun l => ⟨request.pathname, l⟩) ++
    [⟨request.pathname, "x-default"⟩]

/-- The domain list filtered to the domains that support the resolved
locale (`configWithDefaults.domains?.filter(...) || []`). -/
def domainConfigsOf (config : MiddlewareConfigWithDefaults)
    (res : ResolvedLocale) : List DomainConfig :=
  (config.domains.getD []).filter (fun d =>
    isLocaleSupportedOnDomain res.locale d)

/-- `hasMatchedDefaultLocale`: the resolved locale equals the applicable
default (the matched domain's, else the global one). -/
def hasMatchedDefaultLocale (config : MiddlewareConfigWithDefaults)
    (res : ResolvedLocale) : Bool :=
  match res.domain with
  | some d => d.defaultLocale = res.locale
  | none => res.locale = config.defaultLocale

/-- `hasUnknownHost`: domains are configured but none matched the host. -/
def hasUnknownHost (config : MiddlewareConfigWithDefaults)
    (res : ResolvedLocale) : Bool :=
  config.domains.isSome && res.domain.isNone

/-- The middleware's local `redirect(url, host?)`: build the URL, and when
domains supporting the locale exist and no explicit host was passed, move
to the best matching domain — additionally dropping the first occurrence of
`/<locale>` from the pathname when that domain's default locale is the
resolved locale and the prefix policy is `as-needed`. -/
def redirectDecision (config : MiddlewareConfigWithDefaults)
    (res : ResolvedLocale) (url : String) (host : Option String) :
    ResponseKind :=
  let pn := (splitSearch url).1
  let search := (splitSearch url).2
  let domainConfigs := domainConfigsOf config res
  let adjusted : String × Option String :=
    if 0 < domainConfigs.length ∧ host = none then
      match getBestMatchingDomain res.domain res.locale domainConfigs with
      | some bestMatchingDomain =>
        (if bestMatchingDomain.defaultLocale = res.locale ∧
            config.localePrefix = .asNeeded
         then setPathname (strReplaceFirst pn ("/" ++ res.locale) "")
         else pn,
         some bestMatchingDomain.domain)
      | none => (pn, host)
    else (pn, host)
  ResponseKind.redirect adjusted.1 search adjusted.2

/-- The decision tree of the middleware body (`let response; if …`),
yielding the `ResponseKind` before post-processing. -/
def decideKind (config : MiddlewareConfigWithDefaults)
    (request : RequestInfo) (res : ResolvedLocale)
    (locRedirect locRewrite : Option String) : ResponseKind :=
  let locale := res.locale
  if request.pathname = "/" then
    -- root path
    let pathWithSearch := getPathWithSearch ("/" ++ locale) request.search
    if config.localePrefix = .never ∨
        (hasMatchedDefaultLocale config res ∧
          config.localePrefix = .asNeeded) then
      .rewrite pathWithSearch
    else
      redirectDecision config res pathWithSearch none
  else
    -- localized pathnames (the external module's results), when configured
    let viaPathnames : Option ResponseKind :=
      if config.pathnames then
        match locRedirect with
        | some p => some (redirectDecision config res p none)
        | none =>
          match locRewrite with
          | some p => some (.rewrite p)
          | none => none
      else none
    match viaPathnames with
    | some k => k
    | none =>
      let pathLocale := getKnownLocaleFromPathname request.pathname
        config.locales
      let pathWithSearch := getPathWithSearch request.pathname request.search
      match pathLocale with
      | some pl =>
        let basePath := getBasePath pathWithSearch pl
        if config.localePrefix = .never then
          redirectDecision config res basePath none
        else if pl = locale then
          if hasMatchedDefaultLocale config res ∧
              config.localePrefix = .asNeeded then
            redirectDecision config res basePath none
          else if config.domains.isSome then
            let pathDomain := getBestMatchingDomain res.domain pl
              (domainConfigsOf config res)
            if (res.domain.map DomainConfig.domain ≠
                  pathDomain.map DomainConfig.domain) ∧
                ¬ hasUnknownHost config res then
              redirectDecision config res basePath
                (pathDomain.map DomainConfig.domain)
            else .next
          else .next
        else
          redirectDecision config res ("/" ++ locale ++ basePath) none
      | none =>
        if config.localePrefix = .never ∨
            (hasMatchedDefaultLocale config res ∧
              (config.localePrefix = .asNeeded ∨ config.domains.isSome)) then
          .rewrite ("/" ++ locale ++ pathWithSearch)
        else
          redirectDecision config res ("/" ++ locale ++ pathWithSearch) none

/-- The embedded middleware body: the decision plus post-processing — the
cookie is (re)set whenever the stored value differs from the resolved
locale (an absent cookie also differs), the locale header is injected into
the forwarded request headers of responses built with a request init
(rewrite and pass-through; a redirect is built without one), and the
alternate-links header is attached under its three-fold condition. -/
def middleware (config : MiddlewareConfigWithDefaults)
    (request : RequestInfo) (res : ResolvedLocale)
    (locRedirect locRewrite : Option String) : MiddlewareResponse :=
  let locale := res.locale
  let hasOutdatedCookie := request.cookieLocale ≠ some locale
  let kind := decideKind config request res locRedirect locRewrite
  { kind := kind
    cookieSet :=
      if hasOutdatedCookie then some (COOKIE_LOCALE_NAME, locale, "strict")
      else none
    requestLocaleHeader :=
      if kind.isRedirect then none
      else if hasOutdatedCookie then some locale else none
    linkHeader :=
      if config.localePrefix ≠ .never ∧ config.alternateLinks ∧
          1 < config.locales.length then
        some (getAlternateLinksHeaderValue config request)
      else none }

/-! ## `receiveConfig` and the deprecation migration (`middleware.tsx`)

The setup path: `createMiddleware(config)` calls `receiveConfig`, which
first migrates the deprecated `routing` option and per-domain `locale`
field and then fills in the defaults.  Neither function validates the
configuration or signals an error — both are total. -/

/-- The deprecated nested `routing` option. -/
inductive RoutingDeprecated where
  | prefixShape (p : Option LocalePrefixMode)
  | domainShape (domains : List (String × String))
deriving DecidableEq, Repr

/-- A domain entry as user code may pass it, including the deprecated
`locale` field. -/
structure DomainConfigInput where
  domain : String
  defaultLocale : String
  locales : Option (List String)
  locale : Option String
deriving DecidableEq, Repr

/-- The user-facing `MiddlewareConfig` before defaults: optional fields are
`Option`s, plus the deprecated `routing` shape. -/
structure MiddlewareConfigInput where
  locales : List String
  defaultLocale : String
  localePrefix : Option LocalePrefixMode
  domains : Option (List DomainConfigInput)
  alternateLinks : Option Bool
  localeDetection : Option Bool
  routing : Option RoutingDeprecated
  pathnames : Bool
deriving DecidableEq, Repr

/-- `handleConfigDeprecations`: migrate `routing` into
`localePrefix`/`domains`, and each deprecated `domain.locale` into
`defaultLocale` plus a singleton `locales` list (JS truthiness: an empty
string `locale` falls through to the existing `defaultLocale`).  The
`console.error` diagnostics are pure side output and are not modelled. -/
def handleConfigDeprecations (config : MiddlewareConfigInput) :
    MiddlewareConfigInput :=
  let config :=
    match config.routing with
    | some (.prefixShape p) =>
      { config with routing := none, localePrefix := p }
    | some (.domainShape ds) =>
      { config with
        routing := none
        domains := some (ds.map (fun (cur : String × String) =>
          ({ domain := cur.1, defaultLocale := cur.2,
             locales := some [cur.2], locale := none } :
            DomainConfigInput))) }
    | none => config
  match config.domains with
  | some domains =>
    { config with
      domains := some (domains.map (fun (cur : DomainConfigInput) =>
        match cur.locale with
        | some l =>
          if l = "" then { cur with defaultLocale := cur.defaultLocale }
          else { cur with defaultLocale := l, locales := some [l] }
        | none => cur)) }
  | none => config

/-- `receiveConfig`: deprecation migration followed by the defaults
`alternateLinks ?? true`, `localePrefix ?? 'as-needed'`,
`localeDetection ?? true`.  No validation is performed and no error can be
signalled: the function is total. -/
def receiveConfig (config : MiddlewareConfigInput) :
    MiddlewareConfigWithDefaults :=
  let config := handleConfigDeprecations config
  { locales := config.locales
    defaultLocale := config.defaultLocale
    localePrefix := config.localePrefix.getD .asNeeded
    domains := (config.domains.map (fun ds => ds.map (fun d =>
      { domain := d.domain, defaultLocale := d.defaultLocale,
        locales := d.locales : DomainConfig })))
    alternateLinks := config.alternateLinks.getD true
    localeDetection := config.localeDetection.getD true
    pathnames := config.pathnames }

/-! ## Claims about the domain selector and the setup path -/

/-- Claim C1, as stated, is false on the code: with the current-host domain
`a.com` declaring no restricted locale list, priority rule 1 already fires
(`isLocaleSupportedOnDomain` holds for every locale on an unrestricted
domain), so `getBestMatchingDomain` does *not* return the `b.com` record. -/
theorem getBestMatchingDomain_not_bcom :
    getBestMatchingDomain (some ⟨"a.com", "en", none⟩) "de"
        (([⟨"a.com", "en", none⟩, ⟨"b.com", "de", some ["de"]⟩] :
            List DomainConfig).filter
          (fun d => isLocaleSupportedOnDomain "de" d)) ≠
      some ⟨"b.com", "de", some ["de"]⟩ := by
  decide

/-- Claim C1 (corrected): for the domain configuration
`[{a.com, defaultLocale en}, {b.com, defaultLocale de, locales [de]}]`,
with the `a.com` record as current-host domain and target locale `de`, the
filtered domain list contains both records (an unrestricted domain supports
every locale) and `getBestMatchingDomain` returns the *current* `a.com`
record by priority rule 1, not the `b.com` record of priority rule 2. -/
theorem getBestMatchingDomain_stays_on_unrestricted_current :
    getBestMatchingDomain (some ⟨"a.com", "en", none⟩) "de"
        (([⟨"a.com", "en", none⟩, ⟨"b.com", "de", some ["de"]⟩] :
            List DomainConfig).filter
          (fun d => isLocaleSupportedOnDomain "de" d)) =
      some ⟨"a.com", "en", none⟩ := by
  decide

/-- Claim C7, as stated, is false on the code: `receiveConfig` (and hence
`createMiddleware`) performs no validation whatsoever — a configuration
whose default locale `de` is not in the supported list `[en]` is accepted
and normalised without any error being signalled (the embedded setup path,
like the source, has no failure channel at all). -/
theorem receiveConfig_accepts_malformed :
    receiveConfig ⟨["en"], "de", none, none, none, none, none, false⟩ =
      ⟨["en"], "de", .asNeeded, none, true, true, false⟩ ∧
    ¬ (receiveConfig
        ⟨["en"], "de", none, none, none, none, none,
          false⟩).defaultLocale ∈
      (receiveConfig
        ⟨["en"], "de", none, none, none, none, none, false⟩).locales := by
  decide

/-- Claim C7 (corrected): setup never fails.  `receiveConfig` is a total
normalisation: it migrates deprecations and applies the defaults
(`alternateLinks ?? true`, `localeDetection ?? true`, and — when no
deprecated `routing` option interferes — `localePrefix ?? 'as-needed'`),
always preserving `locales` and `defaultLocale` unvalidated; malformed
configuration (e.g. a default locale outside the supported set) is neither
rejected at setup time nor checked later. -/
theorem receiveConfig_total_normalisation (config : MiddlewareConfigInput) :
    (receiveConfig config).locales = config.locales ∧
    (receiveConfig config).defaultLocale = config.defaultLocale ∧
    (receiveConfig config).alternateLinks = config.alternateLinks.getD true ∧
    (receiveConfig config).localeDetection =
      config.localeDetection.getD true ∧
    (receiveConfig config).localePrefix =
      (match config.routing with
       | some (.prefixShape p) => p.getD .asNeeded
       | some (.domainShape _) => config.localePrefix.getD .asNeeded
       | none => config.localePrefix.getD .asNeeded) := by
  rcases config with ⟨ls, dl, lp, doms, al, ld, rt, pn⟩
  rcases rt with _ | r
  · cases doms <;>
      simp [receiveConfig, handleConfigDeprecations]
  · rcases r with p | ds <;> cases doms <;>
      simp [receiveConfig, handleConfigDeprecations]

/-! ## Claims about the middleware's post-processing -/

/-- Claim C5: whenever the stored locale-cookie value differs from the
resolved locale (an absent cookie differs as well), the response carries a
`Set-Cookie` instruction for the locale cookie with the resolved locale as
value and sameSite `strict` — independently of which decision (rewrite,
redirect or pass-through) was taken, since the cookie post-processing runs
on every response. -/
theorem middleware_sets_cookie_on_mismatch
    (config : MiddlewareConfigWithDefaults) (request : RequestInfo)
    (res : ResolvedLocale) (locRedirect locRewrite : Option String)
    (h : request.cookieLocale ≠ some res.locale) :
    (middleware config request res locRedirect locRewrite).cookieSet =
      some (COOKIE_LOCALE_NAME, res.locale, "strict") := by
  simp [middleware, h]

theorem middleware_sets_cookie_on_mismatch_witness :
    (middleware ⟨["en", "de"], "en", .asNeeded, none, true, true, false⟩
        ⟨"/about", "", some "en"⟩ ⟨"de", none⟩ none none).cookieSet =
      some (COOKIE_LOCALE_NAME, "de", "strict") :=
  middleware_sets_cookie_on_mismatch
    ⟨["en", "de"], "en", .asNeeded, none, true, true, false⟩
    ⟨"/about", "", some "en"⟩ ⟨"de", none⟩ none none (by decide)

/-- Claim C6: the alternate-links `Link` header is attached iff alternate
links are enabled, the prefix policy is not `never`, and more than one
locale is configured; when attached it holds one entry per supported locale
plus exactly one `x-default` entry (header content modelled from the spec —
`getAlternateLinksHeaderValue.tsx` is not under `src/`).  The hypothesis
rules out a locale literally named `x-default`. -/
theorem middleware_linkHeader_iff
    (config : MiddlewareConfigWithDefaults) (request : RequestInfo)
    (res : ResolvedLocale) (locRedirect locRewrite : Option String)
    (h : "x-default" ∉ config.locales) :
    ((middleware config request res locRedirect locRewrite).linkHeader ≠
        none ↔
      (config.localePrefix ≠ .never ∧ config.alternateLinks = true ∧
        1 < config.locales.length)) ∧
    (∀ entries,
      (middleware config request res locRedirect locRewrite).linkHeader =
          some entries →
      entries.length = config.locales.length + 1 ∧
      (entries.filter (fun e => e.hreflang = "x-default")).length = 1) := by
  have hfilter : (getAlternateLinksHeaderValue config request).filter
      (fun e => e.hreflang = "x-default") = [⟨request.pathname, "x-default"⟩] := by
    rw [getAlternateLinksHeaderValue, List.filter_append]
    have h1 : (config.locales.map
          (fun l => (⟨request.pathname, l⟩ : LinkEntry))).filter
        (fun e => e.hreflang = "x-default") = [] := by
      rw [List.filter_eq_nil_iff]
      intro e he
      simp only [List.mem_map] at he
      obtain ⟨l, hl, rfl⟩ := he
      simp only [decide_eq_true_eq]
      exact fun hcontra => h (hcontra ▸ hl)
    rw [h1]
    simp
  have hlh : (middleware config request res locRedirect
      locRewrite).linkHeader =
      if config.localePrefix ≠ .never ∧ config.alternateLinks ∧
          1 < config.locales.length then
        some (getAlternateLinksHeaderValue config request)
      else none := rfl
  by_cases hc : config.localePrefix ≠ .never ∧ config.alternateLinks ∧
      1 < config.locales.length
  · rw [if_pos hc] at hlh
    constructor
    · rw [hlh]
      simp only [ne_eq, reduceCtorEq, not_false_eq_true, true_iff]
      exact ⟨hc.1, hc.2.1, hc.2.2⟩
    · intro entries hent
      rw [hlh, Option.some.injEq] at hent
      subst hent
      refine ⟨by simp [getAlternateLinksHeaderValue], ?_⟩
      rw [hfilter]
      rfl
  · rw [if_neg hc] at hlh
    constructor
    · rw [hlh]
      simp only [ne_eq, not_true_eq_false, false_iff]
      exact fun hcon => hc ⟨hcon.1, hcon.2.1, hcon.2.2⟩
    · intro entries hent
      rw [hlh] at hent
      exact absurd hent (by simp)

theorem middleware_linkHeader_iff_witness :
    (("x-default" ∉ (["en", "de"] : List String)) ∧
      ((middleware ⟨["en", "de"], "en", .asNeeded, none, true, true, false⟩
          ⟨"/about", "", some "en"⟩ ⟨"en", none⟩ none none).linkHeader ≠
          none ↔ True)) ∧
    (∀ entries,
      (middleware ⟨["en", "de"], "en", .asNeeded, none, true, true, false⟩
          ⟨"/about", "", some "en"⟩ ⟨"en", none⟩ none none).linkHeader =
          some entries →
      entries.length = 3 ∧
      (entries.filter (fun e => e.hreflang = "x-default")).length = 1) := by
  have h := middleware_linkHeader_iff
    ⟨["en", "de"], "en", .asNeeded, none, true, true, false⟩
    ⟨"/about", "", some "en"⟩ ⟨"en", none⟩ none none (by decide)
  refine ⟨⟨by decide, ?_⟩, fun entries hent => h.2 entries hent⟩
  rw [h.1]
  simp

/-- Claim C9, as stated, is false on the code: a request with no locale
cookie *is* treated like a mismatched cookie (the cookie is set), but when
the decision is a redirect the response is built without a request init, so
no locale header is injected into forwarded request headers — here a
processed request with absent cookie yields a redirect whose forwarded
locale header is absent, contradicting the claim's unconditional
injection. -/
theorem absent_cookie_redirect_no_header :
    (middleware ⟨["en", "de"], "en", .asNeeded, none, true, true, false⟩
        ⟨"/about", "", none⟩ ⟨"de", none⟩ none none).cookieSet =
      some (COOKIE_LOCALE_NAME, "de", "strict") ∧
    (middleware ⟨["en", "de"], "en", .asNeeded, none, true, true, false⟩
        ⟨"/about", "", none⟩ ⟨"de", none⟩ none none).kind =
      .redirect "/de/about" "" none ∧
    (middleware ⟨["en", "de"], "en", .asNeeded, none, true, true, false⟩
        ⟨"/about", "", none⟩ ⟨"de", none⟩ none none).requestLocaleHeader =
      none := by
  decide

/-- Claim C9 (corrected): an absent locale cookie is treated exactly like a
mismatched one — the whole response coincides with the response for any
cookie value different from the resolved locale; the locale cookie is set
to the resolved locale; and the resolved locale is injected into the
forwarded request headers for exactly the responses that carry them
(rewrites and pass-throughs — a redirect is built without a request init
and forwards nothing). -/
theorem absent_cookie_like_mismatch
    (config : MiddlewareConfigWithDefaults) (request : RequestInfo)
    (res : ResolvedLocale) (locRedirect locRewrite : Option String)
    (v : String) (hnone : request.cookieLocale = none)
    (hv : v ≠ res.locale) :
    middleware config request res locRedirect locRewrite =
      middleware config { request with cookieLocale := some v } res
        locRedirect locRewrite ∧
    (middleware config request res locRedirect locRewrite).cookieSet =
      some (COOKIE_LOCALE_NAME, res.locale, "strict") ∧
    ((middleware config request res locRedirect
        locRewrite).kind.isRedirect = false →
      (middleware config request res locRedirect
        locRewrite).requestLocaleHeader = some res.locale) := by
  have hv' : ¬ (some v = some res.locale) := by simpa using hv
  have hk : decideKind config { request with cookieLocale := some v } res
      locRedirect locRewrite =
      decideKind config request res locRedirect locRewrite := rfl
  have ha : getAlternateLinksHeaderValue config
      { request with cookieLocale := some v } =
      getAlternateLinksHeaderValue config request := rfl
  refine ⟨?_, ?_, ?_⟩
  · simp [middleware, hnone, hv', hk, ha]
  · simp [middleware, hnone]
  · intro hred
    simp only [middleware] at hred ⊢
    simp only [hnone, ne_eq, reduceCtorEq, not_false_eq_true, if_true]
    simp only [hred]
    simp

theorem absent_cookie_like_mismatch_witness :
    middleware ⟨["en", "de"], "en", .asNeeded, none, true, true, false⟩
        ⟨"/about", "", none⟩ ⟨"en", none⟩ none none =
      middleware ⟨["en", "de"], "en", .asNeeded, none, true, true, false⟩
        ⟨"/about", "", some "de"⟩ ⟨"en", none⟩ none none ∧
    (middleware ⟨["en", "de"], "en", .asNeeded, none, true, true, false⟩
        ⟨"/about", "", none⟩ ⟨"en", none⟩ none none).cookieSet =
      some (COOKIE_LOCALE_NAME, "en", "strict") ∧
    ((middleware ⟨["en", "de"], "en", .asNeeded, none, true, true, false⟩
        ⟨"/about", "", none⟩ ⟨"en", none⟩ none none).kind.isRedirect =
        false →
      (middleware ⟨["en", "de"], "en", .asNeeded, none, true, true, false⟩
        ⟨"/about", "", none⟩ ⟨"en", none⟩ none
        none).requestLocaleHeader = some "en") :=
  absent_cookie_like_mismatch
    ⟨["en", "de"], "en", .asNeeded, none, true, true, false⟩
    ⟨"/about", "", none⟩ ⟨"en", none⟩ none none "de" rfl (by decide)

/-! ## Claims about the decision tree -/

/-- Claim C4: for a processed request whose pathname is exactly `/`, the
engine rewrites to `/<resolved locale>` (with the original search string
appended) when the prefix policy is `never`, or when the policy is
`as-needed` and the resolved locale equals the applicable default locale;
in every other case the decision is the redirect produced from
`/<resolved locale>` (plus search).  The witness instantiates the claim's
particular cases: resolved `en` = default under `as-needed` rewrites to
`/en`, resolved `de` redirects to `/de`. -/
theorem root_path_decision (config : MiddlewareConfigWithDefaults)
    (request : RequestInfo) (res : ResolvedLocale)
    (locRedirect locRewrite : Option String)
    (hroot : request.pathname = "/") :
    (middleware config request res locRedirect locRewrite).kind =
      if config.localePrefix = .never ∨
          (hasMatchedDefaultLocale config res ∧
            config.localePrefix = .asNeeded) then
        .rewrite (getPathWithSearch ("/" ++ res.locale) request.search)
      else
        redirectDecision config res
          (getPathWithSearch ("/" ++ res.locale) request.search) none := by
  simp [middleware, decideKind, hroot]

theorem root_path_decision_witness :
    (middleware ⟨["en", "de"], "en", .asNeeded, none, true, true, false⟩
        ⟨"/", "", some "en"⟩ ⟨"en", none⟩ none none).kind =
      .rewrite "/en" ∧
    (middleware ⟨["en", "de"], "en", .asNeeded, none, true, true, false⟩
        ⟨"/", "", some "de"⟩ ⟨"de", none⟩ none none).kind =
      .redirect "/de" "" none := by
  constructor
  · rw [root_path_decision _ _ _ _ _ rfl]
    decide
  · rw [root_path_decision _ _ _ _ _ rfl]
    decide

/-- Claim C2, as stated, is false on the code: the source rewrites when the
prefix policy is `never` *or when the default locale matched and* (the
policy is `as-needed` or domains are configured) — not when the policy is
`as-needed` and (the default matched or domains are configured).  Here the
policy is `as-needed` and domains are configured, so the claim predicts a
rewrite to `/de/about`, but the default locale did not match and the code
redirects. -/
theorem generic_unprefixed_counterexample :
    (middleware
        ⟨["en", "de"], "en", .asNeeded,
          some [⟨"a.com", "en", some ["en", "de"]⟩], false, true, false⟩
        ⟨"/about", "", none⟩
        ⟨"de", some ⟨"a.com", "en", some ["en", "de"]⟩⟩ none none).kind ≠
      .rewrite "/de/about" ∧
    (middleware
        ⟨["en", "de"], "en", .asNeeded,
          some [⟨"a.com", "en", some ["en", "de"]⟩], false, true, false⟩
        ⟨"/about", "", none⟩
        ⟨"de", some ⟨"a.com", "en", some ["en", "de"]⟩⟩ none none).kind =
      .redirect "/de/about" "" (some "a.com") := by
  decide

/-- Claim C2 (corrected): in the generic prefix logic, a processed non-root
request whose pathname carries no known locale prefix is rewritten to
`/<locale>/<path>` when the prefix policy is `never`, *or when the default
locale matched and* (the policy is `as-needed` or domains are configured);
in every other case the decision is the redirect produced from
`/<locale>/<path>` (host-adjusted by the domain redirect logic). -/
theorem generic_unprefixed_decision (config : MiddlewareConfigWithDefaults)
    (request : RequestInfo) (res : ResolvedLocale)
    (locRedirect locRewrite : Option String)
    (hroot : request.pathname ≠ "/")
    (hvia : config.pathnames = false ∨
      (locRedirect = none ∧ locRewrite = none))
    (hnopfx : getKnownLocaleFromPathname request.pathname config.locales =
      none) :
    (middleware config request res locRedirect locRewrite).kind =
      if config.localePrefix = .never ∨
          (hasMatchedDefaultLocale config res ∧
            (config.localePrefix = .asNeeded ∨ config.domains.isSome)) then
        .rewrite ("/" ++ res.locale ++
          getPathWithSearch request.pathname request.search)
      else
        redirectDecision config res
          ("/" ++ res.locale ++
            getPathWithSearch request.pathname request.search) none := by
  rcases hvia with hp | ⟨hlr, hlw⟩
  · simp [middleware, decideKind, hroot, hp, hnopfx]
  · subst hlr; subst hlw
    cases hp : config.pathnames <;>
      simp [middleware, decideKind, hroot, hp, hnopfx]

theorem generic_unprefixed_decision_witness :
    (middleware ⟨["en", "de"], "en", .always, none, true, true, false⟩
        ⟨"/about", "?q=1", some "de"⟩ ⟨"de", none⟩ none none).kind =
      .redirect "/de/about" "?q=1" none := by
  rw [generic_unprefixed_decision _ _ _ _ _ (by decide) (Or.inl rfl)
    (by decide)]
  decide

/-- Claim C10, as stated, is false on the code: when the best matching
domain's default locale is the resolved locale and the policy is
`as-needed`, the redirect logic removes the *first occurrence* of the
substring `/<locale>` anywhere in the pathname, not a `/<locale>` prefix.
Here the redirect pathname `/news/de-article` carries no `/de` prefix, so
the claim predicts it unchanged, yet the code mangles it to
`/news-article`. -/
theorem redirect_strip_counterexample :
    (middleware
        ⟨["en", "de"], "en", .asNeeded, some [⟨"b.com", "de", some ["de"]⟩],
          false, true, false⟩
        ⟨"/de/news/de-article", "", some "de"⟩
        ⟨"de", some ⟨"b.com", "de", some ["de"]⟩⟩ none none).kind =
      .redirect "/news-article" "" (some "b.com") ∧
    (middleware
        ⟨["en", "de"], "en", .asNeeded, some [⟨"b.com", "de", some ["de"]⟩],
          false, true, false⟩
        ⟨"/de/news/de-article", "", some "de"⟩
        ⟨"de", some ⟨"b.com", "de", some ["de"]⟩⟩ none none).kind ≠
      .redirect "/news/de-article" "" (some "b.com") := by
  decide

/-- Claim C10 (corrected): whenever the engine issues a redirect without an
explicit host while at least one configured domain supports the resolved
locale, the redirect host becomes the best matching domain's (when one
exists), and if that domain's default locale equals the resolved locale and
the prefix policy is `as-needed`, the *first occurrence* of the substring
`/<locale>` is removed from the redirect pathname (which strips the prefix
when the pathname starts with it, but can also hit a mid-path occurrence);
without a best matching domain the redirect is left unadjusted. -/
theorem redirect_domain_adjustment (config : MiddlewareConfigWithDefaults)
    (res : ResolvedLocale) (url : String)
    (hdc : domainConfigsOf config res ≠ []) :
    redirectDecision config res url none =
      (match getBestMatchingDomain res.domain res.locale
          (domainConfigsOf config res) with
       | some bestMatchingDomain =>
         ResponseKind.redirect
           (if bestMatchingDomain.defaultLocale = res.locale ∧
               config.localePrefix = .asNeeded then
              setPathname
                (strReplaceFirst (splitSearch url).1 ("/" ++ res.locale) "")
            else (splitSearch url).1)
           (splitSearch url).2 (some bestMatchingDomain.domain)
       | none =>
         ResponseKind.redirect (splitSearch url).1 (splitSearch url).2
           none) := by
  have hlen : 0 < (domainConfigsOf config res).length :=
    List.length_pos.mpr hdc
  simp only [redirectDecision, if_pos (And.intro hlen rfl)]
  cases getBestMatchingDomain res.domain res.locale
      (domainConfigsOf config res) <;>
    simp [hlen]

theorem redirect_domain_adjustment_witness :
    redirectDecision
        ⟨["en", "de"], "de", .asNeeded, some [⟨"b.com", "de", some ["de"]⟩],
          true, true, false⟩
        ⟨"de", none⟩ "/de/x?q=1" none =
      .redirect "/x" "?q=1" (some "b.com") := by
  rw [redirect_domain_adjustment _ _ _ (by decide)]
  decide

end NextIntl
